import Mathlib

/-!
Verification of the session-audit extraction pipeline of cc-audit-log
(src/cli.mjs) against its natural-language specification.

The development shallowly embeds the pipeline: the chunked line reader,
the record classifier with its risk matcher, the consecutive-duplicate
action filter of the renderer, the duration formatter, and the default
session selection.  JavaScript regular expressions are embedded as a
small syntax tree with a backtracking matcher covering exactly the
constructs the source uses (literals, character classes, `\s`, `.`,
alternation, Kleene star over a character class, and the `\b`
word-boundary assertion with the ASCII `\w` class).
-/

namespace CCAudit

/-- The JS whitespace class `\s` on the ASCII range (space, tab, and the
ASCII control line breaks); commands in transcripts are ASCII shell text. -/
def isSpaceJS (c : Char) : Bool :=
  c = ' ' || c = '\t' || c = '\n' || c = '\r' || c = '\x0b' || c = '\x0c'

/-- The JS word-character class `\w` = [A-Za-z0-9_] (ASCII, no `u` flag). -/
def isWordJS (c : Char) : Bool :=
  ('a' ≤ c && c ≤ 'z') || ('A' ≤ c && c ≤ 'Z') || ('0' ≤ c && c ≤ '9') || c = '_'

/-- Regular-expression syntax used by the risk table of src/cli.mjs. -/
inductive RE where
  | eps
  | cls (f : Char → Bool)
  | seq (a b : RE)
  | alt (a b : RE)
  | star (f : Char → Bool)
  | wb

/-- Whether an optional character is a word character (`none` = string edge). -/
def wordAt : Option Char → Bool
  | none => false
  | some c => isWordJS c

/-- The `\b` assertion: word-character-ness changes between the previous
character and the next one. -/
def atBoundary (prev : Option Char) (s : List Char) : Bool :=
  wordAt prev != wordAt s.head?

/-- Kleene star over a character class, in continuation style: try the
continuation after zero or more characters of the class. -/
def starMatch (f : Char → Bool) (k : Option Char → List Char → Bool) :
    Option Char → List Char → Bool
  | prev, [] => k prev []
  | prev, c :: rest => k prev (c :: rest) || (f c && starMatch f k (some c) rest)

/-- Backtracking matcher: `mre re prev s k` holds when some prefix of `s`
matches `re` (with `prev` the character just before `s`, for `\b`) and the
continuation `k` accepts the remainder. -/
def mre : RE → Option Char → List Char → (Option Char → List Char → Bool) → Bool
  | .eps, prev, s, k => k prev s
  | .cls _, _, [], _ => false
  | .cls f, _, c :: rest, k => f c && k (some c) rest
  | .seq a b, prev, s, k => mre a prev s (fun p t => mre b p t k)
  | .alt a b, prev, s, k => mre a prev s k || mre b prev s k
  | .star f, prev, s, k => starMatch f k prev s
  | .wb, prev, s, k => atBoundary prev s && k prev s

/-- Search at the current position or any later one (JS `RegExp.test`). -/
def reSearch (re : RE) : Option Char → List Char → Bool
  | prev, s =>
    mre re prev s (fun _ _ => true) ||
      match s with
      | [] => false
      | c :: rest => reSearch re (some c) rest

/-- JS `re.test(s)` for an unanchored regular expression. -/
def reTest (re : RE) (s : String) : Bool :=
  reSearch re none s.toList

/-- A literal character. -/
def chr (c : Char) : RE := .cls (fun d => d = c)

/-- A literal string. -/
def lit (s : String) : RE := s.toList.foldr (fun c r => .seq (chr c) r) .eps

/-- A case-insensitive literal character (the `i` flag). -/
def chrCI (c : Char) : RE := .cls (fun d => d.toLower = c.toLower)

/-- A case-insensitive literal string. -/
def litCI (s : String) : RE := s.toList.foldr (fun c r => .seq (chrCI c) r) .eps

/-- `\s+`. -/
def sp1 : RE := .seq (.cls isSpaceJS) (.star isSpaceJS)

/-- `\s*`. -/
def sp0 : RE := .star isSpaceJS

/-- `.*` — JS `.` matches anything but a line terminator. -/
def dotStar : RE := .star (fun c => !(c = '\n' || c = '\r' || c = '\u2028' || c = '\u2029'))

/-- Concatenation of a list of regular expressions. -/
def cat (l : List RE) : RE := l.foldr .seq .eps

/-- One entry of the risk table: a pattern and its human-readable label. -/
structure RiskPattern where
  pattern : RE
  label : String

/-- The fixed risk table RISK_PATTERNS of src/cli.mjs, pattern by pattern. -/
def RISK_PATTERNS : List RiskPattern := [
  ⟨cat [.wb, lit "rm", sp1, lit "-rf", .wb], "Recursive delete (rm -rf)"⟩,
  ⟨cat [.wb, lit "git", sp1, lit "push", sp1, lit "--force", .wb], "Force push"⟩,
  ⟨cat [.wb, lit "git", sp1, lit "reset", sp1, lit "--hard", .wb], "Hard reset"⟩,
  ⟨cat [.wb, lit "git", sp1, lit "clean", sp1, lit "-fd", .wb], "Git clean"⟩,
  ⟨cat [.wb, lit "curl", .wb, dotStar, .wb, lit "-X", sp0, lit "POST", .wb], "HTTP POST request"⟩,
  ⟨cat [.wb, lit "curl", .wb, dotStar, .wb, lit "--data", .wb], "HTTP POST with data"⟩,
  ⟨cat [.wb, lit "npm", sp1, lit "publish", .wb], "npm publish"⟩,
  ⟨cat [.wb, litCI "drop", sp1, .alt (litCI "table") (litCI "database"), .wb], "Database drop"⟩,
  ⟨cat [.wb, lit "sudo", .wb], "Sudo command"⟩,
  ⟨cat [.wb, lit "chmod", sp1, lit "777", .wb], "Chmod 777"⟩,
  ⟨cat [.wb, lit "kill", sp1, lit "-9", .wb], "Force kill"⟩
]

/-- The pattern of the commit check: `/git\s+commit/`. -/
def reGitCommit : RE := cat [lit "git", sp1, lit "commit"]

/-- The pattern of the push check: `/git\s+push/`. -/
def reGitPush : RE := cat [lit "git", sp1, lit "push"]

/-! ## The chunked line reader -/

/-- JS `String.split` on the newline character: every occurrence of the
separator splits, so the result has one part more than there are
separators (empty parts included). -/
def splitNl : List Char → List (List Char)
  | [] => [[]]
  | c :: rest =>
    if c = '\n' then [] :: splitNl rest
    else (c :: (splitNl rest).headD []) :: (splitNl rest).tail

/-- The chunk loop of auditSession (src/cli.mjs lines 196-288): each decoded
chunk is appended to the carry buffer, the buffer is split on newlines, the
last part is popped back as the new carry, and the remaining parts are the
lines handed to the classifier.  When the input runs out the carry is
discarded with the loop. -/
def chunkFeed : List (List Char) → List Char → List (List Char)
  | [], _ => []
  | c :: cs, buf =>
    let parts := splitNl (buf ++ c)
    parts.dropLast ++ chunkFeed cs (parts.getLastD [])

/-- Prepending a pending prefix to the first part of a split. -/
def mergeHead (pre : List Char) : List (List Char) → List (List Char)
  | [] => [pre]
  | p :: ps => (pre ++ p) :: ps

/-! ## The record classifier -/

/-- The fields of a tool_use input that src/cli.mjs reads, plus the JSON
serialization used for the detail of unknown tools. -/
structure ToolInput where
  file_path : Option String := none
  command : Option String := none
  description : Option String := none
  serialized : String := ""

/-- One content block of a message: a tool invocation, or anything else. -/
inductive Block where
  | toolUse (name : String) (input : ToolInput)
  | otherBlock

/-- One parsed transcript record, reduced to the fields that the audit
loop inspects: the `type` discriminator, the timestamp, and the message
content when it is an array of blocks. -/
structure Record where
  type : String
  timestamp : Option String := none
  content : Option (List Block) := none

/-- An entry of the action timeline. -/
structure Action where
  ts : Option String
  type : String
  detail : String

/-- An entry of the bashCommands list. -/
structure BashEntry where
  ts : Option String
  cmd : String
  desc : String

/-- An entry of the gitCommits list. -/
structure GitEntry where
  ts : Option String
  cmd : String

/-- An entry of the riskFlags list. -/
structure RiskEntry where
  ts : Option String
  label : String
  cmd : String

/-- The accumulator of auditSession; JS Sets are insertion-ordered lists
without duplicates, so the three file sets are kept as lists here. -/
structure AuditResult where
  actions : List Action := []
  filesCreated : List String := []
  filesModified : List String := []
  filesRead : List String := []
  bashCommands : List BashEntry := []
  gitCommits : List GitEntry := []
  riskFlags : List RiskEntry := []
  toolCallCount : Nat := 0

/-- JS `Set.add`: appends at the end unless the element is already there. -/
def insertSet (l : List String) (x : String) : List String :=
  if x ∈ l then l else l ++ [x]

/-- Boolean prefix test on character lists (JS `String.startsWith`). -/
def isPrefixList : List Char → List Char → Bool
  | [], _ => true
  | _ :: _, [] => false
  | x :: xs, y :: ys => x = y && isPrefixList xs ys

/-- shortenPath of src/cli.mjs: replace the home-directory prefix by `~`. -/
def shortenPath (home p : String) : String :=
  if isPrefixList home.toList p.toList then
    String.mk ('~' :: p.toList.drop home.toList.length)
  else p

/-- The 80-character command truncation: above 80 characters keep 77 and
append an ellipsis marker. -/
def shortCmdOf (cmd : String) : String :=
  if cmd.toList.length > 80 then String.mk (cmd.toList.take 77) ++ "..." else cmd

/-- JS `String.trim` (whitespace stripped from both ends). -/
def jsTrimList (s : List Char) : List Char :=
  ((s.dropWhile isSpaceJS).reverse.dropWhile isSpaceJS).reverse

/-- The noisy read-only programs of the anchored filter at src/cli.mjs
line 264. -/
def NOISY_PROGRAMS : List String :=
  ["ls", "cat", "head", "tail", "echo", "pwd", "date", "wc", "grep", "find"]

/-- The anchored test of the noisy-command filter, an alternation of the ten
program names followed by one whitespace character: some alternative is a
prefix of the (already trimmed) command and the next character is
whitespace. -/
def noisyTest (t : List Char) : Bool :=
  NOISY_PROGRAMS.any (fun w =>
    isPrefixList w.toList t &&
      (match t.drop w.toList.length with
        | [] => false
        | c :: _ => isSpaceJS c))

/-- The deny-list of known-noisy auxiliary tools of the default case. -/
def DENY_TOOLS : List String :=
  ["NotebookEdit", "WebFetch", "WebSearch", "TaskOutput", "TaskStop"]

/-- The Bash case of the tool_use switch (src/cli.mjs lines 241-268):
record the command, detect commits and pushes, collect risk flags, and
append a bash action unless the command is noisy or trivially short. -/
def bashCase (ts : Option String) (input : ToolInput) (st : AuditResult) :
    AuditResult :=
  let cmd := input.command.getD ""
  let desc := input.description.getD ""
  let shortCmd := shortCmdOf cmd
  let st1 := { st with bashCommands := st.bashCommands ++ [BashEntry.mk ts cmd desc] }
  let st2 :=
    if reTest reGitCommit cmd then
      { st1 with gitCommits := st1.gitCommits ++ [GitEntry.mk ts shortCmd],
                 actions := st1.actions ++ [Action.mk ts "git" "Git commit"] }
    else if reTest reGitPush cmd then
      { st1 with actions := st1.actions ++ [Action.mk ts "git" ("Git push: " ++ shortCmd)] }
    else st1
  let newFlags : List RiskEntry :=
    (RISK_PATTERNS.filter (fun rp => reTest rp.pattern cmd)).map
      (fun rp => RiskEntry.mk ts rp.label shortCmd)
  let st3 := { st2 with riskFlags := st2.riskFlags ++ newFlags }
  if !noisyTest (jsTrimList cmd.toList) && (jsTrimList cmd.toList).length > 5 then
    { st3 with actions := st3.actions ++ [Action.mk ts "bash" (if desc = "" then shortCmd else desc)] }
  else st3

/-- The switch over tool names of auditSession (src/cli.mjs lines 222-284). -/
def classifyTool (home : String) (ts : Option String) (name : String)
    (input : ToolInput) (st : AuditResult) : AuditResult :=
  match name with
  | "Write" =>
    let fp := shortenPath home (input.file_path.getD "")
    { st with filesCreated := insertSet st.filesCreated fp,
              actions := st.actions ++ [Action.mk ts "create" ("Created " ++ fp)] }
  | "Edit" =>
    let fp := shortenPath home (input.file_path.getD "")
    { st with filesModified := insertSet st.filesModified fp,
              actions := st.actions ++ [Action.mk ts "modify" ("Modified " ++ fp)] }
  | "Read" =>
    let fp := shortenPath home (input.file_path.getD "")
    { st with filesRead := insertSet st.filesRead fp }
  | "Bash" => bashCase ts input st
  | "Task" =>
    let d := input.description.getD ""
    let act : Action := ⟨ts, "task", "Spawned agent: " ++ (if d = "" then "subagent" else d)⟩
    { st with actions := st.actions ++ [act] }
  | "Glob" => st
  | "Grep" => st
  | _ =>
    if name ≠ "" ∧ name ∉ DENY_TOOLS then
      let act : Action := ⟨ts, "other", name ++ ": " ++ String.mk (input.serialized.toList.take 60)⟩
      { st with actions := st.actions ++ [act] }
    else st

/-- One content block: tool invocations bump the counter and are classified,
every other block is ignored. -/
def processBlock (home : String) (ts : Option String) (st : AuditResult)
    (b : Block) : AuditResult :=
  match b with
  | .otherBlock => st
  | .toolUse name input =>
    classifyTool home ts name input { st with toolCallCount := st.toolCallCount + 1 }

/-- One parsed transcript record: only assistant records whose message
content is an array of blocks contribute. -/
def processRecord (home : String) (st : AuditResult) (r : Record) : AuditResult :=
  if r.type = "assistant" then
    match r.content with
    | some blocks => blocks.foldl (processBlock home r.timestamp) st
    | none => st
  else st

/-- The accumulator auditSession starts from. -/
def emptyAudit : AuditResult := {}

/-- The pure core of auditSession: the fold of the record classifier over
the parsed records of the transcript. -/
def auditRecords (home : String) (records : List Record) : AuditResult :=
  records.foldl (processRecord home) emptyAudit

/-! ## Counting helpers -/

/-- Whether a block is a tool invocation. -/
def isToolUse : Block → Bool
  | .toolUse _ _ => true
  | .otherBlock => false

/-- Whether a block is a Bash tool invocation. -/
def isBashUse : Block → Bool
  | .toolUse n _ => n = "Bash"
  | .otherBlock => false

/-- The number of tool-invocation blocks a record contributes: only
assistant records whose message content is an array count. -/
def recordToolUses (r : Record) : Nat :=
  if r.type = "assistant" then
    match r.content with
    | some bs => (bs.filter isToolUse).length
    | none => 0
  else 0

/-- The number of Bash tool-invocation blocks a record contributes. -/
def recordBashUses (r : Record) : Nat :=
  if r.type = "assistant" then
    match r.content with
    | some bs => (bs.filter isBashUse).length
    | none => 0
  else 0

/-! ## Renderer, durations, session selection -/

/-- The risk loop of the Bash branch (src/cli.mjs lines 257-261): the
ordered sublist of the table whose pattern matches the raw command. -/
def risksOf (table : List RiskPattern) (cmd : String) : List RiskPattern :=
  table.filter (fun rp => reTest rp.pattern cmd)

/-- The consecutive-duplicate filter of printSessionSummary (src/cli.mjs
lines 339-346): lastDetail starts as the empty string, and an action is
shown only when its detail differs from the detail of the last shown
action. -/
def dedupGo (last : String) : List Action → List Action
  | [] => []
  | a :: rest => if a.detail = last then dedupGo last rest else a :: dedupGo a.detail rest

/-- The deduplicated timeline (the `shown` list of printSessionSummary). -/
def dedupActions (acts : List Action) : List Action := dedupGo "" acts

/-- The hour and minute parts computed by formatDuration
(src/cli.mjs lines 52-57), on a non-negative millisecond interval. -/
def formatDurationHM (ms : Nat) : Nat × Nat :=
  (ms / 3600000, ms % 3600000 / 60000)

/-- formatDuration of src/cli.mjs: hours and minutes, hours omitted when
zero. -/
def formatDuration (ms : Nat) : String :=
  if (formatDurationHM ms).1 > 0 then
    toString (formatDurationHM ms).1 ++ "h " ++ toString (formatDurationHM ms).2 ++ "m"
  else toString (formatDurationHM ms).2 ++ "m"

/-- Modelled from the spec: the structured (JSON) output mode is documented
(README `--json`, spec §6) but absent from src/cli.mjs; its per-session
`duration` field is the session interval in milliseconds divided by 60000
and floored. -/
def structuredDurationMinutes (ms : Nat) : Nat := ms / 60000

/-- A discovered session (findSessions of src/cli.mjs): the start
timestamp is kept as its millisecond epoch value, which is what the sort
comparator `new Date(a.startTs) - new Date(b.startTs)` compares. -/
structure Session where
  filePath : String
  projectName : String
  startMs : Int
  endMs : Option Int
  size : Nat
  isSubagent : Bool

/-- The default selection of main (src/cli.mjs lines 449-451): drop
subagent sessions from the ascending-sorted list and keep the last N
(JS `slice(-N)` for N ≥ 1). -/
def selectDefault (sessions : List Session) (n : Nat) : List Session :=
  let ms := sessions.filter (fun s => !s.isSubagent)
  ms.drop (ms.length - n)

/-- The end-to-end transcript of the specification's scenario: one
assistant record with a Write to /home/u/proj/a.py, a Bash
`rm -rf /tmp/x`, and a Bash `git commit -m "x"`. -/
def sampleTranscript : List Record :=
  [⟨"assistant", some "T", some
    [.toolUse "Write" { file_path := some "/home/u/proj/a.py" },
     .toolUse "Bash" { command := some "rm -rf /tmp/x" },
     .toolUse "Bash" { command := some "git commit -m \"x\"" }]⟩]

/-! ## Lemmas about the line reader -/

theorem splitNl_ne_nil (s : List Char) : splitNl s ≠ [] := by
  induction s with
  | nil => simp [splitNl]
  | cons c rest ih =>
    simp only [splitNl]
    split <;> simp

theorem mergeHead_ne_nil (pre : List Char) (l : List (List Char)) :
    mergeHead pre l ≠ [] := by
  cases l <;> simp [mergeHead]

theorem splitNl_cons (c : Char) (s : List Char) :
    splitNl (c :: s) =
      if c = '\n' then [] :: splitNl s
      else (c :: (splitNl s).headD []) :: (splitNl s).tail := rfl

theorem splitNl_append (a b : List Char) :
    splitNl (a ++ b) =
      (splitNl a).dropLast ++ mergeHead ((splitNl a).getLastD []) (splitNl b) := by
  induction a with
  | nil =>
    rcases hb : splitNl b with _ | ⟨pb, pbs⟩
    · exact absurd hb (splitNl_ne_nil b)
    · simp [splitNl, mergeHead, hb]
  | cons c rest ih =>
    rcases hS : splitNl rest with _ | ⟨q, qs⟩
    · exact absurd hS (splitNl_ne_nil rest)
    rcases hb : splitNl b with _ | ⟨pb, pbs⟩
    · exact absurd hb (splitNl_ne_nil b)
    rw [List.cons_append, splitNl_cons, splitNl_cons, ih, hS, hb]
    by_cases hc : c = '\n'
    · rw [if_pos hc, if_pos hc]
      cases qs with
      | nil =>
        simp only [List.dropLast_single, List.getLastD_cons, List.getLastD,
          List.nil_append, mergeHead, List.dropLast_cons_of_ne_nil, List.cons_append]
        simp
      | cons r rs =>
        simp only [List.getLastD_cons, mergeHead, List.dropLast_cons₂, List.cons_append]
    · rw [if_neg hc, if_neg hc]
      cases qs with
      | nil =>
        simp only [List.dropLast_single, List.getLastD_cons, List.getLastD,
          List.nil_append, mergeHead, List.headD_cons, List.tail_cons, List.cons_append]
        simp
      | cons r rs =>
        simp only [mergeHead, List.dropLast_cons₂, List.getLastD_cons, List.headD_cons,
          List.tail_cons, List.cons_append]

theorem splitNl_no_nl (s : List Char) (h : '\n' ∉ s) : splitNl s = [s] := by
  induction s with
  | nil => rfl
  | cons c rest ih =>
    have hc : ¬ c = '\n' := fun e => h (e ▸ List.mem_cons_self c rest)
    have hr : '\n' ∉ rest := fun e => h (List.mem_cons_of_mem c e)
    simp [splitNl, hc, ih hr]

theorem getLastD_default_irrel (l : List (List Char)) (h : l ≠ []) (d d' : List Char) :
    l.getLastD d = l.getLastD d' := by
  cases l with
  | nil => exact absurd rfl h
  | cons x xs => rw [List.getLastD_cons, List.getLastD_cons]

theorem nl_not_mem_getLastD (s : List Char) : '\n' ∉ (splitNl s).getLastD [] := by
  induction s with
  | nil => simp [splitNl]
  | cons c rest ih =>
    rcases hS : splitNl rest with _ | ⟨q, qs⟩
    · exact absurd hS (splitNl_ne_nil rest)
    · rw [hS] at ih
      by_cases hc : c = '\n'
      · subst hc
        simpa [splitNl, hS, List.getLastD_cons] using ih
      · cases qs with
        | nil =>
          simp only [List.getLastD_cons, List.getLastD] at ih
          simp only [splitNl, if_neg hc, hS, List.headD_cons, List.tail_cons,
            List.getLastD_cons, List.getLastD]
          intro hmem
          rcases List.mem_cons.mp hmem with h1 | h2
          · exact hc h1.symm
          · exact ih h2
        | cons r rs =>
          simp only [List.getLastD_cons] at ih
          simp only [splitNl, if_neg hc, hS, List.headD_cons, List.tail_cons,
            List.getLastD_cons]
          exact ih

theorem chunkFeed_eq (cs : List (List Char)) :
    ∀ buf : List Char, '\n' ∉ buf →
      chunkFeed cs buf = (splitNl (buf ++ cs.flatten)).dropLast := by
  induction cs with
  | nil =>
    intro buf hbuf
    simp [chunkFeed, splitNl_no_nl buf hbuf]
  | cons c cs ih =>
    intro buf hbuf
    have hL : '\n' ∉ (splitNl (buf ++ c)).getLastD [] := nl_not_mem_getLastD _
    have hsplit : splitNl ((splitNl (buf ++ c)).getLastD [] ++ cs.flatten)
        = mergeHead ((splitNl (buf ++ c)).getLastD []) (splitNl cs.flatten) := by
      rw [splitNl_append, splitNl_no_nl _ hL]
      simp [List.getLastD_cons]
    calc chunkFeed (c :: cs) buf
        = (splitNl (buf ++ c)).dropLast ++ chunkFeed cs ((splitNl (buf ++ c)).getLastD []) := rfl
      _ = (splitNl (buf ++ c)).dropLast
            ++ (splitNl ((splitNl (buf ++ c)).getLastD [] ++ cs.flatten)).dropLast := by
            rw [ih _ hL]
      _ = (splitNl (buf ++ (c :: cs).flatten)).dropLast := by
            rw [hsplit, List.flatten_cons, ← List.append_assoc, splitNl_append (buf ++ c),
              List.dropLast_append_of_ne_nil _ (mergeHead_ne_nil _ _)]

/-! ## Per-branch facts about the classifier -/

theorem bashCase_toolCallCount (ts : Option String) (input : ToolInput)
    (st : AuditResult) : (bashCase ts input st).toolCallCount = st.toolCallCount := by
  simp only [bashCase]
  split_ifs <;> rfl

theorem classifyTool_toolCallCount (home : String) (ts : Option String) (name : String)
    (input : ToolInput) (st : AuditResult) :
    (classifyTool home ts name input st).toolCallCount = st.toolCallCount := by
  simp only [classifyTool]
  split
  · rfl
  · rfl
  · rfl
  · apply bashCase_toolCallCount
  · rfl
  · rfl
  · rfl
  · split_ifs <;> rfl

theorem bashCase_bashCommands (ts : Option String) (input : ToolInput)
    (st : AuditResult) :
    (bashCase ts input st).bashCommands =
      st.bashCommands
        ++ [BashEntry.mk ts (input.command.getD "") (input.description.getD "")] := by
  simp only [bashCase]
  split_ifs <;> rfl

theorem classifyTool_bashCommands (home : String) (ts : Option String) (name : String)
    (input : ToolInput) (st : AuditResult) :
    (classifyTool home ts name input st).bashCommands =
      st.bashCommands
        ++ (if name = "Bash" then
              [BashEntry.mk ts (input.command.getD "") (input.description.getD "")]
            else []) := by
  simp only [classifyTool]
  split
  · simp
  · simp
  · simp
  · rw [bashCase_bashCommands]; simp
  · simp
  · simp
  · simp
  · rename_i h1 h2 h3 h4 h5 h6 h7
    split_ifs <;> simp [h4]

theorem bashCase_files (ts : Option String) (input : ToolInput) (st : AuditResult) :
    (bashCase ts input st).filesCreated = st.filesCreated ∧
    (bashCase ts input st).filesModified = st.filesModified ∧
    (bashCase ts input st).filesRead = st.filesRead := by
  simp only [bashCase]
  split_ifs <;> exact ⟨rfl, rfl, rfl⟩

theorem insertSet_nodup (l : List String) (x : String) (h : l.Nodup) :
    (insertSet l x).Nodup := by
  unfold insertSet
  split_ifs with hx
  · exact h
  · simpa [List.nodup_append] using ⟨h, hx⟩

theorem classifyTool_nodup (home : String) (ts : Option String) (name : String)
    (input : ToolInput) (st : AuditResult)
    (h1 : st.filesCreated.Nodup) (h2 : st.filesModified.Nodup)
    (h3 : st.filesRead.Nodup) :
    (classifyTool home ts name input st).filesCreated.Nodup ∧
    (classifyTool home ts name input st).filesModified.Nodup ∧
    (classifyTool home ts name input st).filesRead.Nodup := by
  simp only [classifyTool]
  split
  · exact ⟨insertSet_nodup _ _ h1, h2, h3⟩
  · exact ⟨h1, insertSet_nodup _ _ h2, h3⟩
  · exact ⟨h1, h2, insertSet_nodup _ _ h3⟩
  · rcases bashCase_files ts input st with ⟨e1, e2, e3⟩
    exact ⟨e1 ▸ h1, e2 ▸ h2, e3 ▸ h3⟩
  · exact ⟨h1, h2, h3⟩
  · exact ⟨h1, h2, h3⟩
  · exact ⟨h1, h2, h3⟩
  · split_ifs <;> exact ⟨h1, h2, h3⟩

/-! ## Fold lemmas -/

theorem foldl_add_count {β : Type} (proj : AuditResult → Nat)
    (f : AuditResult → β → AuditResult) (g : β → Nat)
    (h : ∀ st b, proj (f st b) = proj st + g b) :
    ∀ (l : List β) (st : AuditResult), proj (l.foldl f st) = proj st + (l.map g).sum := by
  intro l
  induction l with
  | nil => intro st; simp
  | cons b bs ih =>
    intro st
    simp only [List.foldl_cons, List.map_cons, List.sum_cons]
    rw [ih, h]
    omega

theorem foldl_preserve {β : Type} (P : AuditResult → Prop)
    (f : AuditResult → β → AuditResult) (h : ∀ st b, P st → P (f st b)) :
    ∀ (l : List β) (st : AuditResult), P st → P (l.foldl f st) := by
  intro l
  induction l with
  | nil => intro st hst; exact hst
  | cons b bs ih => intro st hst; exact ih _ (h st b hst)

theorem processBlock_toolCallCount (home : String) (ts : Option String)
    (st : AuditResult) (b : Block) :
    (processBlock home ts st b).toolCallCount
      = st.toolCallCount + (if isToolUse b then 1 else 0) := by
  cases b with
  | otherBlock => simp [processBlock, isToolUse]
  | toolUse n input => simp [processBlock, isToolUse, classifyTool_toolCallCount]

theorem processBlock_bashCommands (home : String) (ts : Option String)
    (st : AuditResult) (b : Block) :
    (processBlock home ts st b).bashCommands.length
      = st.bashCommands.length + (if isBashUse b then 1 else 0) := by
  cases b with
  | otherBlock => simp [processBlock, isBashUse]
  | toolUse n input =>
    by_cases h : n = "Bash" <;>
      simp [processBlock, classifyTool_bashCommands, isBashUse, h]

theorem filter_length_eq_sum {β : Type} (p : β → Bool) (l : List β) :
    (l.filter p).length = (l.map (fun b => if p b then 1 else 0)).sum := by
  induction l with
  | nil => rfl
  | cons b bs ih =>
    by_cases hb : p b
    · simp [List.filter_cons, hb, ih]
      omega
    · simp [List.filter_cons, hb, ih]

theorem processRecord_toolCallCount (home : String) (st : AuditResult) (r : Record) :
    (processRecord home st r).toolCallCount = st.toolCallCount + recordToolUses r := by
  unfold processRecord recordToolUses
  split_ifs with ht
  · cases hc : r.content with
    | none => simp
    | some bs =>
      rw [foldl_add_count (fun st => st.toolCallCount) _ (fun b => if isToolUse b then 1 else 0)
        (processBlock_toolCallCount home r.timestamp) bs st]
      simp [filter_length_eq_sum]
  · simp

theorem processRecord_bashCommands (home : String) (st : AuditResult) (r : Record) :
    (processRecord home st r).bashCommands.length
      = st.bashCommands.length + recordBashUses r := by
  unfold processRecord recordBashUses
  split_ifs with ht
  · cases hc : r.content with
    | none => simp
    | some bs =>
      rw [foldl_add_count (fun st => st.bashCommands.length) _
        (fun b => if isBashUse b then 1 else 0)
        (processBlock_bashCommands home r.timestamp) bs st]
      simp [filter_length_eq_sum]
  · simp

/-! ## String helpers -/

theorem string_toList_append (s t : String) : (s ++ t).toList = s.toList ++ t.toList := rfl

theorem string_eq_empty_iff (s : String) : s = "" ↔ s.toList = [] := by
  constructor
  · intro e
    subst e
    rfl
  · intro e
    cases s with
    | mk data =>
      cases data with
      | nil => rfl
      | cons c cs => exact absurd e (List.cons_ne_nil c cs)

theorem append_left_ne_empty (s t : String) (h : s ≠ "") : s ++ t ≠ "" := by
  intro e
  rw [string_eq_empty_iff, string_toList_append, List.append_eq_nil] at e
  exact h ((string_eq_empty_iff s).mpr e.1)

theorem append_right_ne_empty (s t : String) (h : t ≠ "") : s ++ t ≠ "" := by
  intro e
  rw [string_eq_empty_iff, string_toList_append, List.append_eq_nil] at e
  exact h ((string_eq_empty_iff t).mpr e.2)

theorem shortCmdOf_ne_empty (cmd : String) (h : cmd ≠ "") : shortCmdOf cmd ≠ "" := by
  unfold shortCmdOf
  split_ifs with hl
  · exact append_right_ne_empty _ _ (by decide)
  · exact h

theorem cmd_ne_empty_of_trim_long (cmd : String)
    (h : 5 < (jsTrimList cmd.toList).length) : cmd ≠ "" := by
  intro e
  subst e
  exact absurd h (by decide)

/-! ## The shape of the Bash branch -/

theorem bashCase_actions_eq (ts : Option String) (input : ToolInput) (st : AuditResult) :
    (bashCase ts input st).actions =
      st.actions
        ++ (if reTest reGitCommit (input.command.getD "") then
              [Action.mk ts "git" "Git commit"]
            else if reTest reGitPush (input.command.getD "") then
              [Action.mk ts "git" ("Git push: " ++ shortCmdOf (input.command.getD ""))]
            else [])
        ++ (if !noisyTest (jsTrimList (input.command.getD "").toList)
              && decide ((jsTrimList (input.command.getD "").toList).length > 5) then
              [Action.mk ts "bash"
                (if input.description.getD "" = "" then shortCmdOf (input.command.getD "")
                 else input.description.getD "")]
            else []) := by
  simp only [bashCase]
  split_ifs <;> simp

theorem bashCase_riskFlags (ts : Option String) (input : ToolInput) (st : AuditResult) :
    (bashCase ts input st).riskFlags =
      st.riskFlags
        ++ (risksOf RISK_PATTERNS (input.command.getD "")).map
            (fun rp => RiskEntry.mk ts rp.label (shortCmdOf (input.command.getD ""))) := by
  simp only [bashCase]
  split_ifs <;> rfl

/-! ## Every action carries a non-empty detail -/

theorem bashCase_actions_detail (ts : Option String) (input : ToolInput)
    (st : AuditResult) :
    ∀ a ∈ (bashCase ts input st).actions, a ∈ st.actions ∨ a.detail ≠ "" := by
  intro a ha
  rw [bashCase_actions_eq] at ha
  rcases List.mem_append.mp ha with ha' | hbash
  · rcases List.mem_append.mp ha' with h0 | hgit
    · exact Or.inl h0
    · right
      by_cases h1 : reTest reGitCommit (input.command.getD "") = true
      · rw [if_pos h1] at hgit
        rcases List.mem_singleton.mp hgit with rfl
        show ("Git commit" : String) ≠ ""
        decide
      · rw [if_neg h1] at hgit
        by_cases h2 : reTest reGitPush (input.command.getD "") = true
        · rw [if_pos h2] at hgit
          rcases List.mem_singleton.mp hgit with rfl
          exact append_left_ne_empty _ _ (by decide)
        · rw [if_neg h2] at hgit
          exact absurd hgit (List.not_mem_nil a)
  · right
    by_cases hc : (!noisyTest (jsTrimList (input.command.getD "").toList)
        && decide ((jsTrimList (input.command.getD "").toList).length > 5)) = true
    · rw [if_pos hc] at hbash
      rcases List.mem_singleton.mp hbash with rfl
      have hlen : 5 < (jsTrimList (input.command.getD "").toList).length :=
        of_decide_eq_true (Bool.and_elim_right hc)
      by_cases hd : input.description.getD "" = ""
      · simpa [hd] using shortCmdOf_ne_empty _ (cmd_ne_empty_of_trim_long _ hlen)
      · simp [hd]
    · rw [if_neg hc] at hbash
      exact absurd hbash (List.not_mem_nil a)

theorem classifyTool_actions_detail (home : String) (ts : Option String)
    (name : String) (input : ToolInput) (st : AuditResult) :
    ∀ a ∈ (classifyTool home ts name input st).actions, a ∈ st.actions ∨ a.detail ≠ "" := by
  intro a ha
  simp only [classifyTool] at ha
  split at ha
  · rcases List.mem_append.mp ha with h | h
    · exact Or.inl h
    · rcases List.mem_singleton.mp h with rfl
      exact Or.inr (append_left_ne_empty _ _ (by decide))
  · rcases List.mem_append.mp ha with h | h
    · exact Or.inl h
    · rcases List.mem_singleton.mp h with rfl
      exact Or.inr (append_left_ne_empty _ _ (by decide))
  · exact Or.inl ha
  · exact bashCase_actions_detail ts input st a ha
  · rcases List.mem_append.mp ha with h | h
    · exact Or.inl h
    · rcases List.mem_singleton.mp h with rfl
      exact Or.inr (append_left_ne_empty _ _ (by decide))
  · exact Or.inl ha
  · exact Or.inl ha
  · split_ifs at ha
    · rcases List.mem_append.mp ha with h | h
      · exact Or.inl h
      · rcases List.mem_singleton.mp h with rfl
        exact Or.inr (append_left_ne_empty _ _ (append_right_ne_empty _ _ (by decide)))
    · exact Or.inl ha

theorem auditRecords_actions_detail (home : String) (records : List Record) :
    ∀ a ∈ (auditRecords home records).actions, a.detail ≠ "" := by
  have hblock : ∀ (ts : Option String) (st : AuditResult) (b : Block),
      (∀ a ∈ st.actions, a.detail ≠ "") →
      ∀ a ∈ (processBlock home ts st b).actions, a.detail ≠ "" := by
    intro ts st b hst a ha
    cases b with
    | otherBlock => exact hst a ha
    | toolUse n input =>
      rcases classifyTool_actions_detail home ts n input _ a ha with h | h
      · exact hst a h
      · exact h
  have hrec : ∀ (st : AuditResult) (r : Record),
      (∀ a ∈ st.actions, a.detail ≠ "") →
      ∀ a ∈ (processRecord home st r).actions, a.detail ≠ "" := by
    intro st r hst
    unfold processRecord
    split_ifs with ht
    · cases hc : r.content with
      | none => exact hst
      | some bs =>
        exact foldl_preserve (fun st => ∀ a ∈ st.actions, a.detail ≠ "") _
          (fun st b h => hblock r.timestamp st b h) bs st hst
    · exact hst
  exact foldl_preserve (fun st => ∀ a ∈ st.actions, a.detail ≠ "") _
    (fun st r h => hrec st r h) records emptyAudit (by intro a ha; exact absurd ha (List.not_mem_nil a))

/-! ## The deduplication filter collapses runs of equal details -/

theorem cons_dedupGo_eq_destutter' (l : List Action) :
    ∀ a : Action, a :: dedupGo a.detail l
      = l.destutter' (fun x y => x.detail ≠ y.detail) a := by
  induction l with
  | nil => intro a; rfl
  | cons b bs ih =>
    intro a
    by_cases h : b.detail = a.detail
    · rw [show dedupGo a.detail (b :: bs) = dedupGo a.detail bs from by simp [dedupGo, h],
        List.destutter'_cons, if_neg (by simp [h])]
      exact ih a
    · rw [show dedupGo a.detail (b :: bs) = b :: dedupGo b.detail bs from by simp [dedupGo, h],
        List.destutter'_cons, if_pos (fun e => h e.symm)]
      exact congrArg (List.cons a) (ih b)

theorem dedupActions_eq_destutter (acts : List Action)
    (h : ∀ a ∈ acts, a.detail ≠ "") :
    dedupActions acts = acts.destutter (fun x y => x.detail ≠ y.detail) := by
  cases acts with
  | nil => rfl
  | cons a l =>
    have ha : a.detail ≠ "" := h a (List.mem_cons_self a l)
    rw [dedupActions,
      show dedupGo "" (a :: l) = a :: dedupGo a.detail l from by simp [dedupGo, ha],
      List.destutter_cons']
    exact cons_dedupGo_eq_destutter' l a

/-! ## The claims -/

/-- C1 (counterexample): the claim fails on the code.  For the transcript
content "x\ny" — whose final line "y" is non-empty and not terminated by a
newline — the chunked reader yields only the line "x"; the final partial
line is never yielded, so its tool-invocation blocks are never classified
or counted. -/
theorem claimC1_counterexample :
    chunkFeed [String.toList "x\ny"] [] = [String.toList "x"] ∧
      String.toList "y" ∉ chunkFeed [String.toList "x\ny"] [] := by
  decide

/-- C1 (amended): for every chunking of the input, the reader yields
exactly the newline-terminated lines — the split on newlines with its
final part removed.  Lines straddling chunk boundaries are reassembled
correctly, but the final partial line at end-of-input, even when
non-empty, is dropped rather than yielded. -/
theorem claimC1_theorem (chunks : List (List Char)) :
    chunkFeed chunks [] = (splitNl chunks.flatten).dropLast := by
  simpa using chunkFeed_eq chunks [] (List.not_mem_nil '\n')

/-- C2 (counterexample): the claim fails on the code.  On the
specification's end-to-end scenario the transcript contains two Bash
invocations (`rm -rf /tmp/x` and `git commit -m "x"`), and each Bash
tool_use block unconditionally pushes one bashCommands entry, so
`bashCommands.length` is 2, not 1 as claimed. -/
theorem claimC2_counterexample :
    (auditRecords "/home/u" sampleTranscript).bashCommands.length = 2 ∧
      ¬ (auditRecords "/home/u" sampleTranscript).bashCommands.length = 1 := by
  decide

/-- C2 (amended): on the end-to-end scenario (home directory /home/u),
auditSession yields filesCreated = ["~/proj/a.py"], toolCallCount = 3,
exactly one risk flag labelled "Recursive delete (rm -rf)", exactly one
git-commit entry and exactly one git action, and bashCommands of length
2 (one entry per Bash invocation). -/
theorem claimC2_theorem :
    (auditRecords "/home/u" sampleTranscript).filesCreated = ["~/proj/a.py"] ∧
    (auditRecords "/home/u" sampleTranscript).toolCallCount = 3 ∧
    ((auditRecords "/home/u" sampleTranscript).riskFlags).map (fun rf => rf.label)
      = ["Recursive delete (rm -rf)"] ∧
    ((auditRecords "/home/u" sampleTranscript).gitCommits).length = 1 ∧
    ((auditRecords "/home/u" sampleTranscript).actions.filter
      (fun a => a.type == "git")).length = 1 ∧
    ((auditRecords "/home/u" sampleTranscript).bashCommands).length = 2 := by
  decide

/-- C3: for every transcript, toolCallCount equals the total number of
tool_use content blocks over all records of type "assistant" whose message
content is an array, regardless of how each block is classified. -/
theorem claimC3_theorem (home : String) (records : List Record) :
    (auditRecords home records).toolCallCount = (records.map recordToolUses).sum := by
  unfold auditRecords
  rw [foldl_add_count (fun st => st.toolCallCount) _ recordToolUses
    (processRecord_toolCallCount home) records emptyAudit]
  simp [emptyAudit]

/-- C4: for every Bash tool invocation, no `bash` action is appended when
the trimmed command starts with a noisy read-only program followed by
whitespace or has length at most 5; otherwise exactly one `bash` action is
appended, whose detail is the description when present and the command
truncated to 80 characters with an ellipsis marker otherwise. -/
theorem claimC4_theorem (home : String) (ts : Option String) (input : ToolInput)
    (st : AuditResult) :
    (classifyTool home ts "Bash" input st).actions.filter (fun a => a.type == "bash")
      = st.actions.filter (fun a => a.type == "bash")
        ++ (if noisyTest (jsTrimList (input.command.getD "").toList) = true
              ∨ (jsTrimList (input.command.getD "").toList).length ≤ 5 then []
            else [Action.mk ts "bash"
              (if input.description.getD "" = "" then shortCmdOf (input.command.getD "")
               else input.description.getD "")]) := by
  rw [show classifyTool home ts "Bash" input st = bashCase ts input st from rfl,
    bashCase_actions_eq, List.filter_append, List.filter_append]
  have h1 : (if reTest reGitCommit (input.command.getD "") then
        [Action.mk ts "git" "Git commit"]
      else if reTest reGitPush (input.command.getD "") then
        [Action.mk ts "git" ("Git push: " ++ shortCmdOf (input.command.getD ""))]
      else []).filter (fun a => a.type == "bash") = [] := by
    split_ifs <;> rfl
  rw [h1]
  generalize jsTrimList (input.command.getD "").toList = t
  by_cases hn : noisyTest t = true
  · simp [hn]
  · have hn' : noisyTest t = false := by revert hn; cases noisyTest t <;> simp
    by_cases h5 : 5 < t.length
    · simp [hn', h5, Nat.not_le.mpr h5]
    · simp [hn', Nat.le_of_not_lt h5]

/-- C5 (corrected): the risk matcher appends one independent entry per
matching signature of the table, and the labels produced are invariant (as
a multiset) under permuting the table; but the specification's example is
wrong — see the counterexample — so the example here is
`sudo rm -rf /tmp/x`, which matches exactly the two signatures
"Recursive delete (rm -rf)" and "Sudo command". -/
theorem claimC5_theorem :
    (∀ (home : String) (ts : Option String) (input : ToolInput) (st : AuditResult),
      (classifyTool home ts "Bash" input st).riskFlags
        = st.riskFlags ++ (risksOf RISK_PATTERNS (input.command.getD "")).map
            (fun rp => RiskEntry.mk ts rp.label (shortCmdOf (input.command.getD "")))) ∧
    (∀ (table table' : List RiskPattern) (cmd : String), table.Perm table' →
      ((risksOf table cmd).map (fun rp => rp.label)).Perm
        ((risksOf table' cmd).map (fun rp => rp.label))) ∧
    ((risksOf RISK_PATTERNS "sudo rm -rf /tmp/x").map (fun rp => rp.label)
      = ["Recursive delete (rm -rf)", "Sudo command"]) := by
  refine ⟨?_, ?_, ?_⟩
  · intro home ts input st
    exact bashCase_riskFlags ts input st
  · intro table table' cmd hperm
    exact (hperm.filter _).map _
  · decide

theorem claimC5_witness :
    RISK_PATTERNS.Perm RISK_PATTERNS.reverse ∧
      ((risksOf RISK_PATTERNS "sudo rm -rf /tmp/x").map (fun rp => rp.label)).Perm
        ((risksOf RISK_PATTERNS.reverse "sudo rm -rf /tmp/x").map (fun rp => rp.label)) :=
  ⟨(List.reverse_perm RISK_PATTERNS).symm,
   claimC5_theorem.2.1 RISK_PATTERNS RISK_PATTERNS.reverse "sudo rm -rf /tmp/x"
     (List.reverse_perm RISK_PATTERNS).symm⟩

/-- C5 (counterexample): the specification's example command
`sudo curl -X POST ...` matches only the "Sudo command" signature, not two:
the HTTP POST patterns require a word character immediately before `-X`
(resp. `--data`) because of the `\b` assertion, and a space fails that
requirement. -/
theorem claimC5_counterexample :
    (risksOf RISK_PATTERNS "sudo curl -X POST https://api.example.com/data").map
      (fun rp => rp.label) = ["Sudo command"] := by
  decide

/-- C6: filesCreated, filesModified and filesRead never contain two equal
shortened paths — repeated Write and Edit invocations on paths that
shorten to the same string collapse to a single entry. -/
theorem claimC6_theorem (home : String) (records : List Record) :
    (auditRecords home records).filesCreated.Nodup ∧
    (auditRecords home records).filesModified.Nodup ∧
    (auditRecords home records).filesRead.Nodup := by
  unfold auditRecords
  refine foldl_preserve
    (fun st => st.filesCreated.Nodup ∧ st.filesModified.Nodup ∧ st.filesRead.Nodup)
    _ ?_ records emptyAudit ⟨List.nodup_nil, List.nodup_nil, List.nodup_nil⟩
  intro st r h
  unfold processRecord
  split_ifs with ht
  · cases hc : r.content with
    | none => exact h
    | some bs =>
      refine foldl_preserve
        (fun st => st.filesCreated.Nodup ∧ st.filesModified.Nodup ∧ st.filesRead.Nodup)
        _ ?_ bs st h
      intro st b hb
      cases b with
      | otherBlock => exact hb
      | toolUse n input =>
        exact classifyTool_nodup home r.timestamp n input _ hb.1 hb.2.1 hb.2.2
  · exact h

/-- C7: on every accumulated action list, the rendered timeline keeps
exactly one action out of each maximal run of consecutive actions with
identical detail (the destutter of the list under detail-inequality), and
consequently no two consecutive rendered actions share a detail. -/
theorem claimC7_theorem (home : String) (records : List Record) :
    dedupActions (auditRecords home records).actions
      = (auditRecords home records).actions.destutter (fun a b => a.detail ≠ b.detail) ∧
    (dedupActions (auditRecords home records).actions).Chain'
      (fun a b => a.detail ≠ b.detail) := by
  have h := dedupActions_eq_destutter _ (auditRecords_actions_detail home records)
  refine ⟨h, ?_⟩
  rw [h]
  exact List.destutter_is_chain' _ _

/-- C8: the structured-output duration in minutes (modelled from the
spec as the floored millisecond interval over 60000) agrees with the
hour/minute rendering of formatDuration: hours times 60 plus minutes
equals the floored quotient. -/
theorem claimC8_theorem (ms : Nat) :
    (formatDurationHM ms).1 * 60 + (formatDurationHM ms).2
      = structuredDurationMinutes ms := by
  simp only [formatDurationHM, structuredDurationMinutes]
  omega

/-- C9: with no date filter and no all-sessions mode, requesting N ≥ 1
sessions from the ascending-sorted session list selects exactly the N most
recent non-subagent sessions, in ascending start-time order; when fewer
than N exist, all of them are selected. -/
theorem claimC9_theorem (sessions : List Session) (n : Nat) (hn : 1 ≤ n)
    (hsort : sessions.Pairwise (fun a b => a.startMs ≤ b.startMs)) :
    (selectDefault sessions n).length
        = min n (sessions.filter (fun s => !s.isSubagent)).length ∧
    (sessions.filter (fun s => !s.isSubagent)).take
        ((sessions.filter (fun s => !s.isSubagent)).length - n)
      ++ selectDefault sessions n = sessions.filter (fun s => !s.isSubagent) ∧
    (selectDefault sessions n).Pairwise (fun a b => a.startMs ≤ b.startMs) ∧
    (∀ x ∈ (sessions.filter (fun s => !s.isSubagent)).take
        ((sessions.filter (fun s => !s.isSubagent)).length - n),
      ∀ y ∈ selectDefault sessions n, x.startMs ≤ y.startMs) ∧
    ((sessions.filter (fun s => !s.isSubagent)).length ≤ n →
      selectDefault sessions n = sessions.filter (fun s => !s.isSubagent)) := by
  have hfil : (sessions.filter (fun s => !s.isSubagent)).Pairwise
      (fun a b => a.startMs ≤ b.startMs) := hsort.filter _
  refine ⟨?_, ?_, ?_, ?_, ?_⟩
  · simp only [selectDefault, List.length_drop]
    omega
  · exact List.take_append_drop _ _
  · exact hfil.sublist (List.drop_sublist _ _)
  · intro x hx y hy
    have hsplit := List.take_append_drop
      ((sessions.filter (fun s => !s.isSubagent)).length - n)
      (sessions.filter (fun s => !s.isSubagent))
    have := (List.pairwise_append.mp (hsplit ▸ hfil)).2.2
    exact this x hx y hy
  · intro hle
    simp [selectDefault, Nat.sub_eq_zero_of_le hle]

theorem claimC9_witness :
    (1 ≤ 1) ∧
    ([Session.mk "a" "p" 1 none 0 false, Session.mk "b" "p" 2 none 0 true,
      Session.mk "c" "p" 3 none 0 false].Pairwise (fun a b => a.startMs ≤ b.startMs)) ∧
    (selectDefault [Session.mk "a" "p" 1 none 0 false, Session.mk "b" "p" 2 none 0 true,
      Session.mk "c" "p" 3 none 0 false] 1).length
      = min 1 ([Session.mk "a" "p" 1 none 0 false, Session.mk "b" "p" 2 none 0 true,
          Session.mk "c" "p" 3 none 0 false].filter (fun s => !s.isSubagent)).length :=
  ⟨Nat.le_refl 1, by decide,
   (claimC9_theorem [Session.mk "a" "p" 1 none 0 false, Session.mk "b" "p" 2 none 0 true,
      Session.mk "c" "p" 3 none 0 false] 1 (Nat.le_refl 1) (by decide)).1⟩

/-- C10: every Bash tool invocation in an assistant record appends exactly
one bashCommands entry — even when the command is missing or empty, and
independently of git-commit detection or action suppression — so
bashCommands has exactly one entry per Bash tool_use block processed. -/
theorem claimC10_theorem (home : String) (records : List Record) :
    (auditRecords home records).bashCommands.length
      = (records.map recordBashUses).sum := by
  unfold auditRecords
  rw [foldl_add_count (fun st => st.bashCommands.length) _ recordBashUses
    (processRecord_bashCommands home) records emptyAudit]
  simp [emptyAudit]

end CCAudit
